import Mathlib

/-!
Verification of the PropPulse+ valuation pipeline (prop_ev.py, auto_prop_scraper.py).

The Python source is shallowly embedded: money/line/probability arithmetic is
modelled over the exact rationals (the source uses Python floats; every numeric
literal appearing in the source is exactly representable, so the rational model
is the intended real-number semantics of the code), the scipy normal CDF is
modelled by the mathematical Gaussian CDF over the reals, pandas data frames
become association lists from column names to lists of optional rationals
(a missing cell models NaN), and pandas group-by/apply becomes an explicit
grouping function on lists of candidate records.
-/

open MeasureTheory Set

namespace PropPulse

/-! ### Odds converter (prop_ev.py, lines 49-56)

def american_to_prob(odds): return abs(odds) / (abs(odds) + 100) if odds < 0 else 100 / (odds + 100)
def net_payout(odds): return 100 / abs(odds) if odds < 0 else odds / 100
def ev_sportsbook(p, odds): return p * net_payout(odds) - (1 - p)
-/

def american_to_prob (odds : ℤ) : ℚ :=
  if odds < 0 then |(odds : ℚ)| / (|(odds : ℚ)| + 100) else 100 / ((odds : ℚ) + 100)

def net_payout (odds : ℤ) : ℚ :=
  if odds < 0 then 100 / |(odds : ℚ)| else (odds : ℚ) / 100

def ev_sportsbook (p : ℚ) (odds : ℤ) : ℚ :=
  p * net_payout odds - (1 - p)

/-! ### L20-weighted projection model (prop_ev.py, lines 176-208)

A pandas data frame becomes an association list from column names to columns;
a column is a list of optional rationals, a missing entry modelling NaN.
pd.to_numeric(...).fillna(0) becomes mapping Option.getD 0 over a column, and
NaN-propagating addition of two columns becomes zipping with cellAdd.
-/

structure DataFrame where
  cols : List (String × List (Option ℚ))

def DataFrame.getCol (df : DataFrame) (name : String) : Option (List (Option ℚ)) :=
  (df.cols.find? (fun c => c.1 = name)).map (fun c => c.2)

def cellAdd : Option ℚ → Option ℚ → Option ℚ
  | some a, some b => some (a + b)
  | _, _ => none

/-- str.upper(), as a map over the character list (extensionally the same
function as the core library uppercase, but reducible in the kernel). -/
def strUpper (s : String) : String := String.mk (s.data.map Char.toUpper)

/-- str.lower(), as a map over the character list. -/
def strLower (s : String) : String := String.mk (s.data.map Char.toLower)

inductive GradeError where
  | missingStat (stat : String)
  | missingBase (stat : String)
deriving DecidableEq

/-- The column-resolution prologue of grade_probabilities (prop_ev.py, lines
186-192): if the requested stat column is absent, REB+AST and PRA are derived
as per-game sums of the base columns (pandas raises a KeyError on a missing
base column, modelled as GradeError.missingBase); any other absent stat raises
KeyError "Missing stat ...", modelled as GradeError.missingStat. -/
def statSeries (df : DataFrame) (stat_col : String) : Except GradeError (List (Option ℚ)) :=
  match df.getCol stat_col with
  | some v => Except.ok v
  | none =>
    if stat_col = "REB+AST" then
      match df.getCol "REB", df.getCol "AST" with
      | some r, some a => Except.ok (List.zipWith cellAdd r a)
      | _, _ => Except.error (GradeError.missingBase stat_col)
    else if stat_col = "PRA" then
      match df.getCol "PTS", df.getCol "REB", df.getCol "AST" with
      | some p, some r, some a =>
          Except.ok (List.zipWith cellAdd (List.zipWith cellAdd p r) a)
      | _, _, _ => Except.error (GradeError.missingBase stat_col)
    else Except.error (GradeError.missingStat stat_col)

def listMean (l : List ℚ) : ℚ := l.sum / l.length

/-- l20_weighted_mean (prop_ev.py, lines 176-182): 0 on an empty series, else
0.60 times the mean of the chronological tail of at most 20 games plus 0.40
times the full-season mean (vals.tail(20) keeps the last min(20, n) rows,
modelled as dropping length - 20 elements from the front). -/
def l20_weighted_mean (vals : List ℚ) : ℚ :=
  if vals.length = 0 then 0
  else
    let season_mean := listMean vals
    let last20 := vals.drop (vals.length - 20)
    let l20_mean := if 0 < last20.length then listMean last20 else season_mean
    0.6 * l20_mean + 0.4 * season_mean

/-- Population variance (ddof = 0), the square of pandas Series.std(ddof=0). -/
def popVar (vals : List ℚ) : ℚ :=
  (vals.map (fun x => (x - listMean vals) ^ 2)).sum / vals.length

/-- The availability test of prop_ev.py line 199: the status is truthy (present
and non-empty) and its lowercase form is neither active nor probable. -/
def injuryDiscount (injury_status : Option String) : Bool :=
  match injury_status with
  | none => false
  | some s => s ≠ "" && !(strLower s = "active" || strLower s = "probable")

/-- The standard normal cumulative distribution function, the mathematical
meaning of scipy.stats.norm.cdf(x). -/
noncomputable def stdNormCdf (x : ℝ) : ℝ :=
  ∫ t in Iic x, (Real.sqrt (2 * Real.pi))⁻¹ * Real.exp (-t ^ 2 / 2)

/-- scipy.stats.norm.cdf(x, mean, std) = stdNormCdf((x - mean) / std). -/
noncomputable def normCdf (x mean std : ℝ) : ℝ :=
  stdNormCdf ((x - mean) / std)

structure GradeResult where
  p_final : ℝ
  n : ℕ
  mean : ℚ

/-- grade_probabilities (prop_ev.py, lines 185-208).  The stat series is
resolved (or derived) by statSeries; values are coerced with NaN -> 0; the
weighted mean is scaled by projected/average minutes (when average minutes is
positive), an availability discount of 0.9, and the matchup multiplier; the
final probability blends the parametric normal tail (weight 0.8) with the
empirical exceedance frequency (weight 0.2), the latter defaulting to 0.5 on
an empty series. -/
noncomputable def grade_probabilities (df : DataFrame) (stat_col : String) (line : ℚ)
    (proj_mins avg_mins : ℚ) (injury_status : Option String) (dvp_mult : ℚ) :
    Except GradeError GradeResult :=
  (statSeries df stat_col).map (fun series =>
    let vals := series.map (fun v => v.getD 0)
    let n := vals.length
    let std : ℝ := if 1 < n then Real.sqrt ((popVar vals : ℚ) : ℝ) else 1
    let mean0 := l20_weighted_mean vals
    let mean1 := if 0 < avg_mins then mean0 * (proj_mins / avg_mins) else mean0
    let mean2 := if injuryDiscount injury_status then mean1 * 0.9 else mean1
    let mean := mean2 * dvp_mult
    let p_norm : ℝ := 1 - normCdf ((line : ℚ) : ℝ) ((mean : ℚ) : ℝ) std
    let p_emp : ℚ :=
      if 0 < n then ((vals.filter (fun v => line < v)).length : ℚ) / (n : ℚ) else 0.5
    ⟨0.8 * p_norm + 0.2 * ((p_emp : ℚ) : ℝ), n, mean⟩)

/-! ### DvP multiplier (prop_ev.py, lines 315-326)

The ambient table dvp_data (a nested dict team -> position -> stat -> rank)
is passed explicitly as a lookup function; dict.get chains returning None are
modelled by the Option result.  The function is total: a missing rank or an
empty argument yields the neutral multiplier 1.0, never an error. -/

def get_dvp_multiplier (dvp_data : String → String → String → Option ℚ)
    (opponent_abbr position stat_key : String) : ℚ :=
  if opponent_abbr = "" ∨ position = "" ∨ stat_key = "" then 1
  else
    match dvp_data (strUpper opponent_abbr) (strUpper position) (strUpper stat_key) with
    | none => 1
    | some rank => 1.1 - (rank - 1) / 300

/-! ### Candidate selector: smart deduplication
(auto_prop_scraper.py, fetch_prizepicks_props, lines 232-301)

A prop candidate after the scraper's filters carries a player name, a stat key
and a line value.  The deduplication stage groups candidates by (player, stat)
and applies select_main_line to each group; the final sanity filter then drops
non-positive lines and player names of length at most 2. -/

structure PropCandidate where
  player : String
  stat : String
  line : ℚ
deriving DecidableEq

/-- How often a line value occurs within a group (pandas value_counts). -/
def countLine (g : List PropCandidate) (x : ℚ) : ℕ :=
  (g.filter (fun p => p.line = x)).length

/-- First-occurrence argmin of f over b :: l: a left fold that replaces the
running best only on strict improvement.  This is the semantics of both the
explicit best_line loop (strict less-than update, lines 262-269) and of
idxmin on a pandas series (first index attaining the minimum, line 275). -/
def argminAux {α : Type} (f : α → ℚ) (b : α) : List α → α
  | [] => b
  | x :: xs => argminAux f (if f x < f b then x else b) xs

/-- The most common line value of a group (value_counts().index[0], lines
237-238): a value of maximal multiplicity.  pandas leaves the order of
equal-count values unspecified; the model resolves such ties to the value
occurring first, which is immaterial to the claims below (they either assume a
strict mode or pairwise-distinct values). -/
def modeLine (c : PropCandidate) (rest : List PropCandidate) : ℚ :=
  argminAux (fun x => -(countLine (c :: rest) x : ℚ)) c.line (rest.map (fun p => p.line))

/-- min(abs(line - t) for t in targets), line 266; targets is never empty. -/
def minDist (targets : List ℚ) (x : ℚ) : ℚ :=
  match targets with
  | [] => 0
  | t :: ts => ts.foldl (fun d u => min d |x - u|) |x - t|

/-- The per-stat typical main-board line values (lines 251-258). -/
def typical_values : String → Option (List ℚ)
  | "PTS" => some [10.5, 12.5, 14.5, 16.5, 18.5, 20.5, 22.5, 25.5, 28.5, 30.5]
  | "REB" => some [3.5, 4.5, 5.5, 6.5, 7.5, 8.5, 9.5, 10.5]
  | "AST" => some [2.5, 3.5, 4.5, 5.5, 6.5, 7.5, 8.5]
  | "PRA" => some [18.5, 20.5, 22.5, 25.5, 28.5, 30.5, 35.5]
  | "REB+AST" => some [4.5, 5.5, 6.5, 7.5, 8.5, 9.5, 10.5]
  | "FG3M" => some [1.5, 2.5, 3.5, 4.5]
  | _ => none

/-- The best_line loop of lines 261-269: starting from the group's first line
with an infinite best distance, take each line in group order and keep it when
its distance to the nearest typical value strictly improves on the best so
far (so the first line attaining the minimum distance wins). -/
def bestTypicalLine (targets : List ℚ) (c : PropCandidate) (rest : List PropCandidate) : ℚ :=
  argminAux (fun x => minDist targets x) c.line (rest.map (fun p => p.line))

/-- pandas Series.median(): middle element of the sorted values, or the average
of the two middle elements for an even count. -/
def medianLine (g : List PropCandidate) : ℚ :=
  let sorted := (g.map (fun p => p.line)).mergeSort (fun a b => decide (a ≤ b))
  if sorted.length % 2 = 1 then sorted.getD (sorted.length / 2) 0
  else (sorted.getD (sorted.length / 2 - 1) 0 + sorted.getD (sorted.length / 2) 0) / 2

/-- Lines 274-276: the row whose line is closest to the group median, first
index winning ties (idxmin). -/
def closestToMedian (med : ℚ) (c : PropCandidate) (rest : List PropCandidate) : PropCandidate :=
  argminAux (fun p => |p.line - med|) c rest

/-- select_main_line (auto_prop_scraper.py, lines 232-276).  Singleton groups
are kept as is; else if some line value occurs at least twice, the first row
carrying the most common value is selected; else if the stat has a
typical-values list, the first row whose line minimises the distance to the
nearest typical value; else the row closest to the group's median line. -/
def select_main_line (g : List PropCandidate) : Option PropCandidate :=
  match g with
  | [] => none
  | c :: rest =>
    if rest.isEmpty then some c
    else if 2 ≤ countLine (c :: rest) (modeLine c rest) then
      (c :: rest).find? (fun p => p.line = modeLine c rest)
    else
      match typical_values c.stat with
      | some targets =>
          (c :: rest).find? (fun p => p.line = bestTypicalLine targets c rest)
      | none => some (closestToMedian (medianLine (c :: rest)) c rest)

def propKey (p : PropCandidate) : String × String := (p.player, p.stat)

/-- The deduplication of lines 284-288: group by (player, stat) and apply
select_main_line to each group.  pandas sorts the group keys; the model keeps
them in first-occurrence order, which only permutes the output and is
immaterial to the claims below. -/
def dedup_props (props : List PropCandidate) : List PropCandidate :=
  ((props.map propKey).dedup).filterMap
    (fun k => select_main_line (props.filter (fun p => propKey p = k)))

/-- Deduplication followed by the final sanity filter of line 300
(line > 0 and len(player) > 2). -/
def dedup_stage (props : List PropCandidate) : List PropCandidate :=
  (dedup_props props).filter (fun p => decide (0 < p.line) && decide (2 < p.player.length))

/-- The allowed stat keys of the scraper (auto_prop_scraper.py, line 131). -/
def allowed_stats : List String :=
  ["PTS", "REB", "AST", "PRA", "PR", "PA", "REB+AST", "FG3M"]

/-! ### Concrete fixtures used by witnesses and counterexamples -/

/-- A data frame whose PTS column is present but holds zero rows. -/
def emptyLog : DataFrame := ⟨[("PTS", [])]⟩

/-- A three-game log with one missing (NaN) value. -/
def sampleLog : DataFrame := ⟨[("PTS", [some 10, none, some 30])]⟩

/-- A log carrying the base columns PTS, REB, AST only. -/
def baseLog : DataFrame := ⟨[("PTS", [some 1]), ("REB", [some 2]), ("AST", [some 3])]⟩

/-- A small DvP table fixture. -/
def dvp_table_example : String → String → String → Option ℚ := fun team pos stat =>
  if team = "BOS" ∧ pos = "PG" ∧ stat = "PTS" then some 1
  else if team = "NYK" ∧ pos = "C" ∧ stat = "REB" then some 151
  else none

/-- A (player, stat) group with lines [20, 20, 22]. -/
def groupMode : List PropCandidate :=
  [⟨"A", "PTS", 20⟩, ⟨"A", "PTS", 20⟩, ⟨"A", "PTS", 22⟩]

/-- A (player, stat) group with all-distinct PTS lines [21, 23, 27]. -/
def groupTypical : List PropCandidate :=
  [⟨"B", "PTS", 21⟩, ⟨"B", "PTS", 23⟩, ⟨"B", "PTS", 27⟩]

end PropPulse

namespace PropPulse

/-! ## Theorems -/

/-- C3 (counterexample): the claim asserts that american_to_prob is monotone
decreasing in the absolute value of the odds over negative odds, i.e. that for
odds1 = -200 < odds2 = -110 < 0 one has american_to_prob(-200) < american_to_prob(-110).
In the code the negative branch is abs(odds)/(abs(odds)+100), which is strictly
increasing in abs(odds): american_to_prob(-200) = 2/3 > 11/21 = american_to_prob(-110). -/
theorem C3_counterexample :
    american_to_prob (-200) = 2 / 3 ∧ american_to_prob (-110) = 11 / 21 ∧
      ¬ american_to_prob (-200) < american_to_prob (-110) := by
  refine ⟨by norm_num [american_to_prob], by norm_num [american_to_prob], ?_⟩
  norm_num [american_to_prob]

/-- C3 (amended): american_to_prob is monotone increasing in |odds| over negative
integer odds (equivalently, strictly decreasing in the odds themselves there:
odds1 < odds2 < 0 implies american_to_prob(odds2) < american_to_prob(odds1)),
strictly decreasing in odds over non-negative integer odds, and
american_to_prob(-110) = 110/210 = 11/21. -/
theorem C3_amended :
    (∀ o1 o2 : ℤ, o1 < o2 → o2 < 0 → american_to_prob o2 < american_to_prob o1) ∧
    (∀ o1 o2 : ℤ, 0 ≤ o1 → o1 < o2 → american_to_prob o2 < american_to_prob o1) ∧
    american_to_prob (-110) = 11 / 21 := by
  refine ⟨?_, ?_, by norm_num [american_to_prob]⟩
  · intro o1 o2 h12 h2
    have h1 : o1 < 0 := h12.trans h2
    have hc1 : (o1 : ℚ) < 0 := by exact_mod_cast h1
    have hc2 : (o2 : ℚ) < 0 := by exact_mod_cast h2
    have ha1 : |(o1 : ℚ)| = -(o1 : ℚ) := abs_of_neg hc1
    have ha2 : |(o2 : ℚ)| = -(o2 : ℚ) := abs_of_neg hc2
    have hq12 : (o1 : ℚ) < (o2 : ℚ) := by exact_mod_cast h12
    simp only [american_to_prob, if_pos h1, if_pos h2, ha1, ha2]
    rw [div_lt_div_iff₀ (by linarith) (by linarith)]
    nlinarith
  · intro o1 o2 h1 h12
    have h2 : ¬ o2 < 0 := by omega
    have h1n : ¬ o1 < 0 := by omega
    have hq1 : (0 : ℚ) ≤ (o1 : ℚ) := by exact_mod_cast h1
    have hq12 : (o1 : ℚ) < (o2 : ℚ) := by exact_mod_cast h12
    simp only [american_to_prob, if_neg h1n, if_neg h2]
    rw [div_lt_div_iff₀ (by linarith) (by linarith)]
    nlinarith

/-- C3 (amended, witness): concrete instances of both monotonicity directions and
the exact value at -110. -/
theorem C3_amended_witness :
    american_to_prob (-110) < american_to_prob (-200) ∧
      american_to_prob 150 < american_to_prob 100 ∧
      american_to_prob (-110) = 11 / 21 :=
  ⟨C3_amended.1 (-200) (-110) (by norm_num) (by norm_num),
   C3_amended.2.1 100 150 (by norm_num) (by norm_num),
   C3_amended.2.2⟩

/-- C4 (counterexample): the claim asserts ev_sportsbook(0.5, -110) ≈ -0.0238.
The code computes 0.5 * (100/110) - 0.5 = -1/22 = -0.0454545..., which is not
within 0.01 of -0.0238 (the difference is about 0.0217). -/
theorem C4_counterexample :
    ev_sportsbook (1 / 2) (-110) = -1 / 22 ∧
      ¬ |ev_sportsbook (1 / 2) (-110) - (-238 / 10000)| < 1 / 100 := by
  have h : ev_sportsbook (1 / 2) (-110) = -1 / 22 := by
    norm_num [ev_sportsbook, net_payout]
  refine ⟨h, ?_⟩
  rw [h, show ((-1 : ℚ) / 22 - -238 / 10000) = -(1191 / 55000) by norm_num,
    abs_neg, abs_of_nonneg (by norm_num)]
  norm_num

/-- C4 (amended): with model probability p = 0.5 and odds = -110, the expected
value per unit stake computed by ev_sportsbook is exactly -1/22 ≈ -0.0455
(within 0.0001 of -0.0455). -/
theorem C4_amended :
    ev_sportsbook (1 / 2) (-110) = -1 / 22 ∧
      |ev_sportsbook (1 / 2) (-110) - (-455 / 10000)| < 1 / 10000 := by
  have h : ev_sportsbook (1 / 2) (-110) = -1 / 22 := by
    norm_num [ev_sportsbook, net_payout]
  refine ⟨h, ?_⟩
  rw [h, show ((-1 : ℚ) / 22 - -455 / 10000) = 1 / 22000 by norm_num,
    abs_of_nonneg (by norm_num)]
  norm_num

/-- C10: for every integer odds, the denominator of the branch of american_to_prob
and net_payout actually evaluated is nonzero (|odds| + 100 in the negative branch,
odds + 100 in the non-negative branch of american_to_prob; |odds| in the negative
branch of net_payout, 100 otherwise), and american_to_prob(odds) lies in the
half-open interval (0, 1], attaining 1 exactly at odds = 0. -/
theorem C10_no_div_zero_and_range (odds : ℤ) :
    (|(odds : ℚ)| + 100 ≠ 0) ∧
    (0 ≤ odds → ((odds : ℚ) + 100 ≠ 0)) ∧
    (odds < 0 → (|(odds : ℚ)| ≠ 0)) ∧
    (100 : ℚ) ≠ 0 ∧
    0 < american_to_prob odds ∧
    american_to_prob odds ≤ 1 ∧
    (american_to_prob odds = 1 ↔ odds = 0) := by
  have habs : (0 : ℚ) ≤ |(odds : ℚ)| := abs_nonneg _
  refine ⟨by positivity, ?_, ?_, by norm_num, ?_⟩
  · intro h
    have : (0 : ℚ) ≤ (odds : ℚ) := by exact_mod_cast h
    positivity
  · intro h
    have hc : (odds : ℚ) ≤ -1 := by exact_mod_cast (show odds ≤ -1 by omega)
    rw [abs_of_neg (by linarith : (odds : ℚ) < 0)]
    linarith
  · rcases lt_trichotomy odds 0 with h | h | h
    · have hc : (odds : ℚ) ≤ -1 := by exact_mod_cast (show odds ≤ -1 by omega)
      have hne : odds ≠ 0 := by omega
      simp only [american_to_prob, if_pos h, abs_of_neg (by linarith : (odds : ℚ) < 0)]
      have hq : (1 : ℚ) ≤ -(odds : ℚ) := by linarith
      have hpos : (0 : ℚ) < -(odds : ℚ) + 100 := by linarith
      refine ⟨by positivity, ?_, ?_⟩
      · rw [div_le_one hpos]; linarith
      · constructor
        · intro heq
          rw [div_eq_one_iff_eq (by linarith)] at heq
          exfalso; linarith
        · intro h0; exact absurd h0 hne
    · subst h
      simp only [american_to_prob]
      norm_num
    · have hn : ¬ odds < 0 := by omega
      have hq : (1 : ℚ) ≤ (odds : ℚ) := by exact_mod_cast h
      simp only [american_to_prob, if_neg hn]
      have hpos : (0 : ℚ) < (odds : ℚ) + 100 := by linarith
      refine ⟨by positivity, ?_, ?_⟩
      · rw [div_le_one hpos]; linarith
      · constructor
        · intro heq
          rw [div_eq_one_iff_eq (by linarith)] at heq
          exfalso; linarith
        · intro h0
          exact absurd h0 (by omega)

/-- C5: the DvP multiplier equals 1.1 - (rank - 1)/300 whenever the lookup finds
a rank (so 1.1 at rank 1 and 0.6 at rank 151) and is exactly 1 when the lookup
finds none.  The embedded function is total, so no lookup can raise. -/
theorem C5_dvp_multiplier (dvp_data : String → String → String → Option ℚ)
    (opponent_abbr position stat_key : String)
    (h1 : opponent_abbr ≠ "") (h2 : position ≠ "") (h3 : stat_key ≠ "") :
    (∀ rank : ℚ,
      dvp_data (strUpper opponent_abbr) (strUpper position) (strUpper stat_key) = some rank →
        get_dvp_multiplier dvp_data opponent_abbr position stat_key = 1.1 - (rank - 1) / 300) ∧
    (dvp_data (strUpper opponent_abbr) (strUpper position) (strUpper stat_key) = some 1 →
        get_dvp_multiplier dvp_data opponent_abbr position stat_key = 1.1) ∧
    (dvp_data (strUpper opponent_abbr) (strUpper position) (strUpper stat_key) = some 151 →
        get_dvp_multiplier dvp_data opponent_abbr position stat_key = 0.6) ∧
    (dvp_data (strUpper opponent_abbr) (strUpper position) (strUpper stat_key) = none →
        get_dvp_multiplier dvp_data opponent_abbr position stat_key = 1) := by
  have hcond : ¬ (opponent_abbr = "" ∨ position = "" ∨ stat_key = "") := by
    push_neg
    exact ⟨h1, h2, h3⟩
  refine ⟨?_, ?_, ?_, ?_⟩
  · intro rank h
    simp only [get_dvp_multiplier, if_neg hcond, h]
  · intro h
    simp only [get_dvp_multiplier, if_neg hcond, h]
    norm_num
  · intro h
    simp only [get_dvp_multiplier, if_neg hcond, h]
    norm_num
  · intro h
    simp only [get_dvp_multiplier, if_neg hcond, h]

/-- C5 (witness): the fixture table at lowercase inputs (exercising the
uppercase normalisation), hitting rank 1, rank 151 and a missing rank. -/
theorem C5_dvp_multiplier_witness :
    get_dvp_multiplier dvp_table_example "bos" "pg" "pts" = 1.1 ∧
    get_dvp_multiplier dvp_table_example "nyk" "c" "reb" = 0.6 ∧
    get_dvp_multiplier dvp_table_example "LAL" "SF" "AST" = 1 :=
  ⟨(C5_dvp_multiplier dvp_table_example "bos" "pg" "pts"
      (by decide) (by decide) (by decide)).2.1 (by decide),
   (C5_dvp_multiplier dvp_table_example "nyk" "c" "reb"
      (by decide) (by decide) (by decide)).2.2.1 (by decide),
   (C5_dvp_multiplier dvp_table_example "LAL" "SF" "AST"
      (by decide) (by decide) (by decide)).2.2.2 (by decide)⟩

/-- The mean of a nonempty list is at least any lower bound of its members. -/
theorem le_listMean (l : List ℚ) (m : ℚ) (hne : l ≠ []) (hm : ∀ x ∈ l, m ≤ x) :
    m ≤ listMean l := by
  have hlen : 0 < l.length := List.length_pos.mpr hne
  have hsum : l.length • m ≤ l.sum := List.card_nsmul_le_sum l m hm
  rw [nsmul_eq_mul] at hsum
  rw [listMean, le_div_iff₀ (by exact_mod_cast hlen)]
  linarith

/-- The mean of a nonempty list is at most any upper bound of its members. -/
theorem listMean_le (l : List ℚ) (M : ℚ) (hne : l ≠ []) (hM : ∀ x ∈ l, x ≤ M) :
    listMean l ≤ M := by
  have hlen : 0 < l.length := List.length_pos.mpr hne
  have hsum : l.sum ≤ l.length • M := List.sum_le_card_nsmul l M hM
  rw [nsmul_eq_mul] at hsum
  rw [listMean, div_le_iff₀ (by exact_mod_cast hlen)]
  linarith

/-- The weighted mean 0.6 * L20 + 0.4 * SEASON of a nonempty series lies between
any lower and upper bound of the series. -/
theorem l20_weighted_mean_bounds (vals : List ℚ) (m M : ℚ) (hne : vals ≠ [])
    (hm : ∀ x ∈ vals, m ≤ x) (hM : ∀ x ∈ vals, x ≤ M) :
    m ≤ l20_weighted_mean vals ∧ l20_weighted_mean vals ≤ M := by
  have hlen : ¬ vals.length = 0 := by
    simpa [List.length_eq_zero] using hne
  have hlenpos : 0 < vals.length := Nat.pos_of_ne_zero hlen
  have h20len : 0 < (vals.drop (vals.length - 20)).length := by
    rw [List.length_drop]; omega
  have h20ne : vals.drop (vals.length - 20) ≠ [] := by
    intro h
    rw [h] at h20len
    simp at h20len
  have hsub : ∀ x ∈ vals.drop (vals.length - 20), x ∈ vals :=
    fun x hx => List.mem_of_mem_drop hx
  have hs1 : m ≤ listMean vals := le_listMean vals m hne hm
  have hs2 : listMean vals ≤ M := listMean_le vals M hne hM
  have hl1 : m ≤ listMean (vals.drop (vals.length - 20)) :=
    le_listMean _ m h20ne (fun x hx => hm x (hsub x hx))
  have hl2 : listMean (vals.drop (vals.length - 20)) ≤ M :=
    listMean_le _ M h20ne (fun x hx => hM x (hsub x hx))
  simp only [l20_weighted_mean, if_neg hlen, if_pos h20len]
  constructor <;> linarith

/-- C6: for every data frame whose requested stat column is present and holds a
nonempty series, with projected minutes equal to average minutes (positive), no
injury status and a neutral DvP multiplier, the adjusted mean produced by
grade_probabilities is exactly l20_weighted_mean of the zero-filled series, and
that weighted mean lies between any lower and any upper bound of the zero-filled
series (in particular between its minimum and maximum). -/
theorem C6_weighted_mean_within_log_range (df : DataFrame) (stat_col : String)
    (series : List (Option ℚ)) (m M line avg_mins : ℚ)
    (hcol : df.getCol stat_col = some series) (hne : series ≠ [])
    (havg : 0 < avg_mins)
    (hm : ∀ x ∈ series.map (fun v => v.getD 0), m ≤ x)
    (hM : ∀ x ∈ series.map (fun v => v.getD 0), x ≤ M) :
    (grade_probabilities df stat_col line avg_mins avg_mins none 1).map GradeResult.mean =
      Except.ok (l20_weighted_mean (series.map (fun v => v.getD 0))) ∧
    m ≤ l20_weighted_mean (series.map (fun v => v.getD 0)) ∧
    l20_weighted_mean (series.map (fun v => v.getD 0)) ≤ M := by
  have hmapne : series.map (fun v => v.getD 0) ≠ [] := by
    simpa using hne
  have hbounds := l20_weighted_mean_bounds (series.map (fun v => v.getD 0)) m M hmapne hm hM
  refine ⟨?_, hbounds.1, hbounds.2⟩
  simp only [grade_probabilities, statSeries, hcol, Except.map]
  rw [if_pos havg, div_self (ne_of_gt havg), mul_one]
  simp [injuryDiscount]

/-- C6 (witness): the bound at a concrete three-game log with a missing value
(coerced to zero), bounds 0 and 30. -/
theorem C6_weighted_mean_witness :
    (grade_probabilities sampleLog "PTS" 12 30 30 none 1).map GradeResult.mean =
      Except.ok (l20_weighted_mean [10, 0, 30]) ∧
    (0 : ℚ) ≤ l20_weighted_mean [10, 0, 30] ∧ l20_weighted_mean [10, 0, 30] ≤ 30 := by
  have h := C6_weighted_mean_within_log_range sampleLog "PTS" [some 10, none, some 30]
    0 30 12 30 rfl (by decide) (by norm_num) (by decide) (by decide)
  simpa using h

/-- grade_probabilities only post-processes the resolved series, so it fails
with a given error exactly when column resolution does. -/
theorem grade_error_iff (df : DataFrame) (stat_col : String) (line proj avg : ℚ)
    (inj : Option String) (dvp : ℚ) (e : GradeError) :
    grade_probabilities df stat_col line proj avg inj dvp = Except.error e ↔
      statSeries df stat_col = Except.error e := by
  unfold grade_probabilities
  cases h : statSeries df stat_col <;> simp [Except.map]

/-- Column resolution raises the missing-stat error exactly when the requested
column is absent and the stat is neither REB+AST nor PRA. -/
theorem statSeries_missingStat_iff (df : DataFrame) (stat_col : String) :
    statSeries df stat_col = Except.error (GradeError.missingStat stat_col) ↔
      df.getCol stat_col = none ∧ stat_col ≠ "REB+AST" ∧ stat_col ≠ "PRA" := by
  unfold statSeries
  cases h : df.getCol stat_col with
  | some v => simp [h]
  | none =>
    simp only [h]
    by_cases h1 : stat_col = "REB+AST"
    · subst h1
      cases hr : DataFrame.getCol df "REB" <;> cases ha : DataFrame.getCol df "AST" <;>
        simp [hr, ha]
    · by_cases h2 : stat_col = "PRA"
      · subst h2
        simp only [if_neg h1, if_pos rfl]
        cases hp : DataFrame.getCol df "PTS" <;> cases hr : DataFrame.getCol df "REB" <;>
          cases ha : DataFrame.getCol df "AST" <;> simp [hp, hr, ha]
      · simp [h1, h2]

/-- C9: grade_probabilities fails with the missing-stat error exactly when the
requested stat column is absent from the log and the stat is not one of the two
derivable composites REB+AST and PRA; when it is one of those (base columns
present) the series is derived as the per-game sum of the base columns; and the
stat keys PR and PA, though admitted by the scraper's allowed set, raise the
missing-stat error whenever absent from the log. -/
theorem C9_missing_stat_error (df : DataFrame) (stat_col : String) (line proj avg : ℚ)
    (inj : Option String) (dvp : ℚ) :
    ((grade_probabilities df stat_col line proj avg inj dvp =
        Except.error (GradeError.missingStat stat_col)) ↔
      (df.getCol stat_col = none ∧ stat_col ≠ "REB+AST" ∧ stat_col ≠ "PRA")) ∧
    (∀ r a : List (Option ℚ), df.getCol "REB+AST" = none →
      df.getCol "REB" = some r → df.getCol "AST" = some a →
      statSeries df "REB+AST" = Except.ok (List.zipWith cellAdd r a)) ∧
    (∀ p r a : List (Option ℚ), df.getCol "PRA" = none → df.getCol "PTS" = some p →
      df.getCol "REB" = some r → df.getCol "AST" = some a →
      statSeries df "PRA" = Except.ok (List.zipWith cellAdd (List.zipWith cellAdd p r) a)) ∧
    "PR" ∈ allowed_stats ∧ "PA" ∈ allowed_stats ∧
    (df.getCol "PR" = none → grade_probabilities df "PR" line proj avg inj dvp =
      Except.error (GradeError.missingStat "PR")) ∧
    (df.getCol "PA" = none → grade_probabilities df "PA" line proj avg inj dvp =
      Except.error (GradeError.missingStat "PA")) := by
  refine ⟨(grade_error_iff df stat_col line proj avg inj dvp _).trans
    (statSeries_missingStat_iff df stat_col), ?_, ?_, by decide, by decide, ?_, ?_⟩
  · intro r a hnone hr ha
    unfold statSeries
    simp [hnone, hr, ha]
  · intro p r a hnone hp hr ha
    unfold statSeries
    simp [hnone, hp, hr, ha]
  · intro hnone
    exact (grade_error_iff df "PR" line proj avg inj dvp _).mpr
      ((statSeries_missingStat_iff df "PR").mpr ⟨hnone, by decide, by decide⟩)
  · intro hnone
    exact (grade_error_iff df "PA" line proj avg inj dvp _).mpr
      ((statSeries_missingStat_iff df "PA").mpr ⟨hnone, by decide, by decide⟩)

/-- C9 (witness): on a log carrying only the base columns, an unknown stat and
the admitted-but-absent PR both raise the missing-stat error, while REB+AST is
derived as the per-game sum of REB and AST. -/
theorem C9_missing_stat_witness :
    grade_probabilities baseLog "FG3M" 0 30 30 none 1 =
      Except.error (GradeError.missingStat "FG3M") ∧
    grade_probabilities baseLog "PR" 0 30 30 none 1 =
      Except.error (GradeError.missingStat "PR") ∧
    statSeries baseLog "REB+AST" = Except.ok [some 5] := by
  refine ⟨(C9_missing_stat_error baseLog "FG3M" 0 30 30 none 1).1.mpr
    ⟨by decide, by decide, by decide⟩,
    (C9_missing_stat_error baseLog "PR" 0 30 30 none 1).2.2.2.2.2.1 (by decide), ?_⟩
  have h := (C9_missing_stat_error baseLog "REB+AST" 0 30 30 none 1).2.1
    [some 2] [some 3] (by decide) (by decide) (by decide)
  rw [h]
  norm_num [cellAdd]

/-- The standard normal density is integrable. -/
theorem gaussian_integrable :
    Integrable (fun t : ℝ => (Real.sqrt (2 * Real.pi))⁻¹ * Real.exp (-t ^ 2 / 2)) := by
  have heq : ∀ t : ℝ, -t ^ 2 / 2 = -(1 / 2 : ℝ) * t ^ 2 := fun t => by ring
  simp only [heq]
  exact (integrable_exp_neg_mul_sq (by norm_num)).const_mul _

/-- The standard normal density integrates to one over the whole line. -/
theorem gaussian_total :
    (∫ t : ℝ, (Real.sqrt (2 * Real.pi))⁻¹ * Real.exp (-t ^ 2 / 2)) = 1 := by
  have heq : ∀ t : ℝ, -t ^ 2 / 2 = -(1 / 2 : ℝ) * t ^ 2 := fun t => by ring
  simp only [heq]
  rw [integral_mul_left, integral_gaussian,
    show Real.pi / (1 / 2 : ℝ) = 2 * Real.pi by ring, inv_mul_cancel₀]
  exact Real.sqrt_ne_zero'.mpr (by positivity)

/-- By symmetry of the density, the standard normal CDF at 0 is one half. -/
theorem stdNormCdf_zero : stdNormCdf 0 = 1 / 2 := by
  have hint := gaussian_integrable
  have hsplit :
      (∫ t : ℝ, (Real.sqrt (2 * Real.pi))⁻¹ * Real.exp (-t ^ 2 / 2)) =
        (∫ t in Iic (0 : ℝ), (Real.sqrt (2 * Real.pi))⁻¹ * Real.exp (-t ^ 2 / 2)) +
          ∫ t in Ioi (0 : ℝ), (Real.sqrt (2 * Real.pi))⁻¹ * Real.exp (-t ^ 2 / 2) := by
    rw [← setIntegral_union (Iic_disjoint_Ioi le_rfl) measurableSet_Ioi
      hint.integrableOn hint.integrableOn, Iic_union_Ioi, Measure.restrict_univ]
  have hci := integral_comp_neg_Iic (0 : ℝ)
    (fun t => (Real.sqrt (2 * Real.pi))⁻¹ * Real.exp (-t ^ 2 / 2))
  simp only [neg_zero, neg_sq] at hci
  have htot := gaussian_total
  rw [hsplit, ← hci] at htot
  unfold stdNormCdf
  linarith

/-- The standard normal CDF is strictly monotone. -/
theorem stdNormCdf_strictMono : StrictMono stdNormCdf := by
  intro a b hab
  have hint := gaussian_integrable
  have hsplit :
      (∫ t in Iic b, (Real.sqrt (2 * Real.pi))⁻¹ * Real.exp (-t ^ 2 / 2)) =
        (∫ t in Iic a, (Real.sqrt (2 * Real.pi))⁻¹ * Real.exp (-t ^ 2 / 2)) +
          ∫ t in Ioc a b, (Real.sqrt (2 * Real.pi))⁻¹ * Real.exp (-t ^ 2 / 2) := by
    rw [← setIntegral_union (Iic_disjoint_Ioc le_rfl) measurableSet_Ioc
      hint.integrableOn hint.integrableOn, Iic_union_Ioc_eq_Iic hab.le]
  have hpos :
      0 < ∫ t in Ioc a b, (Real.sqrt (2 * Real.pi))⁻¹ * Real.exp (-t ^ 2 / 2) := by
    rw [← intervalIntegral.integral_of_le hab.le]
    refine intervalIntegral.intervalIntegral_pos_of_pos hint.intervalIntegrable ?_ hab
    intro x
    positivity
  unfold stdNormCdf
  rw [hsplit]
  linarith

/-- Evaluation of grade_probabilities on a log whose stat column is present but
has zero rows: the sample size is 0, the adjusted mean is 0 regardless of the
multipliers, the empirical component defaults to 0.5, and the blended
probability is 0.8 times the standard normal tail above the line plus 0.1. -/
theorem grade_probabilities_empty (df : DataFrame) (stat_col : String)
    (h : df.getCol stat_col = some []) (line proj_mins avg_mins : ℚ)
    (injury_status : Option String) (dvp_mult : ℚ) :
    grade_probabilities df stat_col line proj_mins avg_mins injury_status dvp_mult =
      Except.ok ⟨0.8 * (1 - stdNormCdf ((line : ℚ) : ℝ)) + 0.2 * ((1 : ℝ) / 2), 0, 0⟩ := by
  have hss : statSeries df stat_col = Except.ok [] := by
    unfold statSeries
    rw [h]
  have hmean :
      (if injuryDiscount injury_status then
          (if 0 < avg_mins then l20_weighted_mean [] * (proj_mins / avg_mins)
            else l20_weighted_mean []) * 0.9
        else
          (if 0 < avg_mins then l20_weighted_mean [] * (proj_mins / avg_mins)
            else l20_weighted_mean [])) * dvp_mult = 0 := by
    simp only [l20_weighted_mean, List.length_nil, if_pos rfl]
    split_ifs <;> ring
  unfold grade_probabilities
  rw [hss]
  simp only [Except.map, List.map_nil, List.length_nil, List.filter_nil, hmean]
  norm_num [normCdf]

/-- C2 (counterexample): the claim asserts the blended probability equals 0.5
for every line whenever the sample size is 0.  At line = 1 (zero-row PTS log,
neutral multipliers) the blend is 0.8 * (1 - stdNormCdf 1) + 0.1 < 0.5, because
stdNormCdf 1 > stdNormCdf 0 = 1/2. -/
theorem C2_counterexample :
    (grade_probabilities emptyLog "PTS" 1 30 30 none 1).map GradeResult.n = Except.ok 0 ∧
    (grade_probabilities emptyLog "PTS" 1 30 30 none 1).map GradeResult.p_final ≠
      Except.ok ((1 : ℝ) / 2) := by
  have h := grade_probabilities_empty emptyLog "PTS" (by decide) 1 30 30 none 1
  rw [h]
  have hmono := stdNormCdf_strictMono (show (0 : ℝ) < ((1 : ℚ) : ℝ) by norm_num)
  rw [stdNormCdf_zero] at hmono
  refine ⟨rfl, ?_⟩
  intro hc
  rw [Except.map, Except.ok.injEq] at hc
  norm_num at hc
  linarith

/-- C2 (amended): for a game log whose requested stat column is present with
zero rows, the empirical component of the blend is 0.5 and the final blended
probability equals 0.8 * (1 - stdNormCdf line) + 0.2 * 0.5, for every line and
every multiplier setting; this equals 0.5 exactly when the line equals the
degenerate adjusted mean 0, not for every line value. -/
theorem C2_degenerate_probability (df : DataFrame) (stat_col : String)
    (h : df.getCol stat_col = some []) (line proj_mins avg_mins : ℚ)
    (injury_status : Option String) (dvp_mult : ℚ) :
    grade_probabilities df stat_col line proj_mins avg_mins injury_status dvp_mult =
      Except.ok ⟨0.8 * (1 - stdNormCdf ((line : ℚ) : ℝ)) + 0.2 * ((1 : ℝ) / 2), 0, 0⟩ ∧
    (0.8 * (1 - stdNormCdf ((line : ℚ) : ℝ)) + 0.2 * ((1 : ℝ) / 2) = 1 / 2 ↔ line = 0) := by
  refine ⟨grade_probabilities_empty df stat_col h line proj_mins avg_mins
    injury_status dvp_mult, ?_, ?_⟩
  · intro heq
    norm_num at heq
    have hΦ : stdNormCdf ((line : ℚ) : ℝ) = stdNormCdf 0 := by
      rw [stdNormCdf_zero]
      linarith
    have := stdNormCdf_strictMono.injective hΦ
    exact_mod_cast this
  · intro h0
    subst h0
    rw [show (((0 : ℚ) : ℝ)) = (0 : ℝ) by norm_num, stdNormCdf_zero]
    norm_num

/-- C2 (amended, witness): the zero-row PTS log at line 0, where the blend does
equal 0.5. -/
theorem C2_degenerate_witness :
    grade_probabilities emptyLog "PTS" 0 30 30 none 1 =
      Except.ok ⟨0.8 * (1 - stdNormCdf ((0 : ℚ) : ℝ)) + 0.2 * ((1 : ℝ) / 2), 0, 0⟩ ∧
    0.8 * (1 - stdNormCdf (((0 : ℚ) : ℝ))) + 0.2 * ((1 : ℝ) / 2) = 1 / 2 := by
  have h := C2_degenerate_probability emptyLog "PTS" (by decide) 0 30 30 none 1
  exact ⟨h.1, h.2.mpr rfl⟩

/-- The strict-improvement fold returns its seed or a member of the list. -/
theorem argminAux_mem {α : Type} (f : α → ℚ) (b : α) (l : List α) :
    argminAux f b l = b ∨ argminAux f b l ∈ l := by
  induction l generalizing b with
  | nil => exact Or.inl rfl
  | cons x xs ih =>
    rcases ih (if f x < f b then x else b) with h | h
    · rw [show argminAux f b (x :: xs) = argminAux f (if f x < f b then x else b) xs from rfl, h]
      split
      · exact Or.inr (List.mem_cons_self _ _)
      · exact Or.inl rfl
    · exact Or.inr (List.mem_cons_of_mem _ (by
        rw [show argminAux f b (x :: xs) = argminAux f (if f x < f b then x else b) xs from rfl]
        exact h))

/-- The strict-improvement fold attains the minimum of f over seed and list. -/
theorem argminAux_le {α : Type} (f : α → ℚ) (b : α) (l : List α) :
    f (argminAux f b l) ≤ f b ∧ ∀ x ∈ l, f (argminAux f b l) ≤ f x := by
  induction l generalizing b with
  | nil => exact ⟨le_rfl, by simp⟩
  | cons x xs ih =>
    obtain ⟨h1, h2⟩ := ih (if f x < f b then x else b)
    have hb : f (if f x < f b then x else b) ≤ f b := by
      split
      · exact le_of_lt (by assumption)
      · exact le_rfl
    have hx : f (if f x < f b then x else b) ≤ f x := by
      split
      · exact le_rfl
      · exact le_of_not_lt (by assumption)
    refine ⟨?_, ?_⟩
    · exact h1.trans hb
    · intro y hy
      rcases List.mem_cons.mp hy with rfl | hy
      · exact h1.trans hx
      · exact h2 y hy

/-- Characterisation of the strict-improvement fold: either no list element
strictly improves on the seed and the seed is returned, or the result is the
first list element attaining the minimum (everything before it is strictly
worse, everything after it no better). -/
theorem argminAux_spec {α : Type} (f : α → ℚ) (b : α) (l : List α) :
    (argminAux f b l = b ∧ ∀ x ∈ l, f b ≤ f x) ∨
    (∃ l1 l2, l = l1 ++ argminAux f b l :: l2 ∧ f (argminAux f b l) < f b ∧
      (∀ x ∈ l1, f (argminAux f b l) < f x) ∧ (∀ x ∈ l2, f (argminAux f b l) ≤ f x)) := by
  induction l generalizing b with
  | nil => exact Or.inl ⟨rfl, by simp⟩
  | cons x xs ih =>
    by_cases hx : f x < f b
    · have hred : argminAux f b (x :: xs) = argminAux f x xs := by
        show argminAux f (if f x < f b then x else b) xs = _
        rw [if_pos hx]
      rcases ih x with ⟨heq, hmin⟩ | ⟨l1, l2, hdec, hlt, hpre, hpost⟩
      · right
        refine ⟨[], xs, ?_, ?_, by simp, ?_⟩
        · rw [hred, heq]; simp
        · rw [hred, heq]; exact hx
        · intro y hy; rw [hred, heq]; exact hmin y hy
      · right
        refine ⟨x :: l1, l2, ?_, ?_, ?_, ?_⟩
        · rw [hred, List.cons_append]
          exact congrArg (List.cons x) hdec
        · rw [hred]; exact hlt.trans hx
        · intro y hy
          rcases List.mem_cons.mp hy with rfl | hy
          · rw [hred]; exact hlt
          · rw [hred]; exact hpre y hy
        · intro y hy; rw [hred]; exact hpost y hy
    · have hred : argminAux f b (x :: xs) = argminAux f b xs := by
        show argminAux f (if f x < f b then x else b) xs = _
        rw [if_neg hx]
      rcases ih b with ⟨heq, hmin⟩ | ⟨l1, l2, hdec, hlt, hpre, hpost⟩
      · left
        refine ⟨by rw [hred]; exact heq, ?_⟩
        intro y hy
        rcases List.mem_cons.mp hy with rfl | hy
        · exact le_of_not_lt hx
        · exact hmin y hy
      · right
        refine ⟨x :: l1, l2, ?_, ?_, ?_, ?_⟩
        · rw [hred, List.cons_append]
          exact congrArg (List.cons x) hdec
        · rw [hred]; exact hlt
        · intro y hy
          rcases List.mem_cons.mp hy with rfl | hy
          · rw [hred]; exact hlt.trans_le (le_of_not_lt hx)
          · rw [hred]; exact hpre y hy
        · intro y hy; rw [hred]; exact hpost y hy

/-- A line value occurs in a group exactly when some candidate carries it. -/
theorem countLine_pos (g : List PropCandidate) (x : ℚ) :
    0 < countLine g x ↔ ∃ p ∈ g, p.line = x := by
  unfold countLine
  rw [← List.countP_eq_length_filter, List.countP_pos_iff]
  simp

/-- The count of any line value in a group is bounded by the group size. -/
theorem countLine_le_length (g : List PropCandidate) (x : ℚ) :
    countLine g x ≤ g.length :=
  List.length_filter_le _ _

/-- The most common line is itself a line of the group and has maximal count. -/
theorem modeLine_spec (c : PropCandidate) (rest : List PropCandidate) :
    modeLine c rest ∈ (c :: rest).map (fun p => p.line) ∧
    ∀ x ∈ (c :: rest).map (fun p => p.line),
      countLine (c :: rest) x ≤ countLine (c :: rest) (modeLine c rest) := by
  have hm := argminAux_mem (fun x => -(countLine (c :: rest) x : ℚ)) c.line
    (rest.map (fun p => p.line))
  have hle := argminAux_le (fun x => -(countLine (c :: rest) x : ℚ)) c.line
    (rest.map (fun p => p.line))
  constructor
  · rcases hm with h | h
    · rw [modeLine, h]
      exact List.mem_map_of_mem _ (List.mem_cons_self _ _)
    · rw [List.map_cons]
      exact List.mem_cons_of_mem _ h
  · intro x hx
    rw [List.map_cons, List.mem_cons] at hx
    have hq : -(countLine (c :: rest) (modeLine c rest) : ℚ) ≤ -(countLine (c :: rest) x : ℚ) := by
      rcases hx with rfl | hx
      · exact hle.1
      · exact hle.2 x hx
    have h2 : (countLine (c :: rest) x : ℚ) ≤ (countLine (c :: rest) (modeLine c rest) : ℚ) := by
      linarith
    exact_mod_cast h2

/-- C7: if some line value m occurs at least twice in a group and strictly more
often than every other line value (m is the strict mode), select_main_line
returns the first candidate of the group carrying m. -/
theorem C7_mode_selection (c : PropCandidate) (rest : List PropCandidate) (m : ℚ)
    (hcount : 2 ≤ countLine (c :: rest) m)
    (hstrict : ∀ x ∈ (c :: rest).map (fun p => p.line), x ≠ m →
      countLine (c :: rest) x < countLine (c :: rest) m) :
    select_main_line (c :: rest) = (c :: rest).find? (fun p => p.line = m) := by
  have hmode : modeLine c rest = m := by
    by_contra hne
    obtain ⟨p, hp, hpl⟩ := (countLine_pos (c :: rest) m).mp (by omega)
    have h1 := (modeLine_spec c rest).2 m (hpl ▸ List.mem_map_of_mem _ hp)
    have h2 := hstrict (modeLine c rest) (modeLine_spec c rest).1 hne
    omega
  have hrest : ¬ rest.isEmpty = true := by
    intro hempty
    rw [List.isEmpty_iff] at hempty
    subst hempty
    have := countLine_le_length [c] m
    simp at this
    omega
  simp only [select_main_line]
  rw [if_neg hrest, hmode, if_pos hcount]

/-- C7 (witness): on the group with lines [20, 20, 22], the selector returns
the first candidate with the modal line 20. -/
theorem C7_mode_selection_witness :
    select_main_line groupMode = some ⟨"A", "PTS", 20⟩ := by
  have h := C7_mode_selection ⟨"A", "PTS", 20⟩ [⟨"A", "PTS", 20⟩, ⟨"A", "PTS", 22⟩] 20
    (by decide) (by decide)
  show select_main_line (⟨"A", "PTS", 20⟩ :: [⟨"A", "PTS", 20⟩, ⟨"A", "PTS", 22⟩]) =
    some ⟨"A", "PTS", 20⟩
  rw [h]
  decide

/-- Splitting a list along a decomposition of its image under a map. -/
theorem map_eq_append_cons {α β : Type} (f : α → β) (l : List α) (l1 l2 : List β) (y : β)
    (h : l.map f = l1 ++ y :: l2) :
    ∃ m1 a m2, l = m1 ++ a :: m2 ∧ m1.map f = l1 ∧ f a = y ∧ m2.map f = l2 := by
  induction l1 generalizing l with
  | nil =>
    cases l with
    | nil => simp at h
    | cons a as =>
      rw [List.map_cons, List.nil_append] at h
      injection h with h1 h2
      exact ⟨[], a, as, by simp, rfl, h1, h2⟩
  | cons b bs ih =>
    cases l with
    | nil => simp at h
    | cons a as =>
      rw [List.map_cons, List.cons_append] at h
      injection h with h1 h2
      obtain ⟨m1, x, m2, hdec, hm1, hx, hm2⟩ := ih as h2
      exact ⟨a :: m1, x, m2, by rw [hdec, List.cons_append],
        by rw [List.map_cons, hm1, h1], hx, hm2⟩

/-- find? on a list split as prefix ++ hit :: tail, when the predicate fails
throughout the prefix and holds at the hit. -/
theorem find?_append_cons {α : Type} (p : α → Bool) (l1 : List α) (a : α) (l2 : List α)
    (hpre : ∀ x ∈ l1, p x = false) (ha : p a = true) :
    (l1 ++ a :: l2).find? p = some a := by
  induction l1 with
  | nil => simpa using List.find?_cons_of_pos l2 ha
  | cons b bs ih =>
    rw [List.cons_append, List.find?_cons_of_neg]
    · exact ih (fun x hx => hpre x (List.mem_cons_of_mem _ hx))
    · simp [hpre b (List.mem_cons_self _ _)]

/-- C8 (amended): for a group with at least two candidates whose line values are
pairwise distinct and whose stat has a typical-values list, select_main_line
returns the first candidate whose line has minimum absolute distance to the
nearest typical value (so ties in that distance are broken by first
occurrence). -/
theorem C8_typical_selection (c : PropCandidate) (rest : List PropCandidate) (targets : List ℚ)
    (htyp : typical_values c.stat = some targets) (hne : rest ≠ [])
    (huniq : ∀ x ∈ (c :: rest).map (fun p => p.line), countLine (c :: rest) x = 1) :
    select_main_line (c :: rest) =
      (c :: rest).find? (fun p =>
        decide (∀ q ∈ c :: rest, minDist targets p.line ≤ minDist targets q.line)) := by
  have hrest : ¬ rest.isEmpty = true := by
    cases rest with
    | nil => exact absurd rfl hne
    | cons a as => simp
  have hmode : ¬ 2 ≤ countLine (c :: rest) (modeLine c rest) := by
    have h1 := huniq (modeLine c rest) (modeLine_spec c rest).1
    omega
  have hsel : select_main_line (c :: rest) =
      (c :: rest).find? (fun p => p.line = bestTypicalLine targets c rest) := by
    simp only [select_main_line]
    rw [if_neg hrest, if_neg hmode]
    simp only [htyp]
  rw [hsel]
  have hbest : bestTypicalLine targets c rest =
      argminAux (fun x => minDist targets x) c.line (rest.map (fun p => p.line)) := rfl
  rcases argminAux_spec (fun x => minDist targets x) c.line (rest.map (fun p => p.line)) with
    ⟨heq, hmin⟩ | ⟨l1, l2, hdec, hlt, hpre, hpost⟩
  · have hb : bestTypicalLine targets c rest = c.line := hbest.trans heq
    have hLfull : (c :: rest).find? (fun p => p.line = bestTypicalLine targets c rest) = some c :=
      List.find?_cons_of_pos _ (by simp [hb])
    have hRfull : (c :: rest).find? (fun p =>
        decide (∀ q ∈ c :: rest, minDist targets p.line ≤ minDist targets q.line)) = some c := by
      refine List.find?_cons_of_pos _ ?_
      rw [decide_eq_true_eq]
      intro q hq
      rcases List.mem_cons.mp hq with rfl | hq
      · exact le_rfl
      · exact hmin q.line (List.mem_map_of_mem _ hq)
    rw [hLfull, hRfull]
  · rw [← hbest] at hdec hlt hpre hpost
    obtain ⟨m1, a, m2, hrd, hm1, hal, hm2⟩ :=
      map_eq_append_cons (fun p => p.line) rest l1 l2 _ hdec
    have hmemA : a ∈ c :: rest := by
      rw [hrd]
      exact List.mem_cons_of_mem _ (List.mem_append_right _ (List.mem_cons_self _ _))
    have hcsplit : c :: rest = (c :: m1) ++ a :: m2 := by
      rw [hrd, List.cons_append]
    have hL2 : ((c :: m1) ++ a :: m2).find?
        (fun p => p.line = bestTypicalLine targets c rest) = some a := by
      refine find?_append_cons _ _ _ _ ?_ ?_
      · intro x hx
        rw [decide_eq_false_iff_not]
        intro hc
        rcases List.mem_cons.mp hx with rfl | hx1
        · rw [hc] at hlt
          exact lt_irrefl _ hlt
        · have hp := hpre x.line (hm1 ▸ List.mem_map_of_mem _ hx1)
          rw [hc] at hp
          exact lt_irrefl _ hp
      · rw [decide_eq_true_eq]
        exact hal
    have hR2 : ((c :: m1) ++ a :: m2).find? (fun p =>
        decide (∀ q ∈ c :: rest, minDist targets p.line ≤ minDist targets q.line)) = some a := by
      refine find?_append_cons _ _ _ _ ?_ ?_
      · intro x hx
        rw [decide_eq_false_iff_not]
        intro hall
        have hxa := hall a hmemA
        rw [hal] at hxa
        rcases List.mem_cons.mp hx with rfl | hx1
        · exact absurd hxa (not_le.mpr hlt)
        · exact absurd hxa (not_le.mpr (hpre x.line (hm1 ▸ List.mem_map_of_mem _ hx1)))
      · rw [decide_eq_true_eq]
        intro q hq
        rw [hal]
        rcases List.mem_cons.mp hq with rfl | hq1
        · exact hlt.le
        · have hql : q.line ∈ l1 ++ bestTypicalLine targets c rest :: l2 := by
            rw [← hdec]
            exact List.mem_map_of_mem _ hq1
          rcases List.mem_append.mp hql with hq2 | hq2
          · exact (hpre q.line hq2).le
          · rcases List.mem_cons.mp hq2 with hq3 | hq3
            · exact le_of_eq (by rw [hq3])
            · exact hpost q.line hq3
    rw [← hcsplit] at hL2 hR2
    rw [hL2, hR2]

/-- Direct evaluation of the selector on the PTS group [21, 23, 27]: lines 21
and 23 are both at distance 0.5 from a typical value (20.5 and 22.5), line 27
is at distance 1.5, and the strict-improvement loop keeps the first line 21. -/
theorem select_groupTypical_eval :
    select_main_line groupTypical = some ⟨"B", "PTS", 21⟩ := by
  show select_main_line (⟨"B", "PTS", 21⟩ :: [⟨"B", "PTS", 23⟩, ⟨"B", "PTS", 27⟩]) =
    some ⟨"B", "PTS", 21⟩
  simp only [select_main_line]
  rw [if_neg (by decide), if_neg (by decide)]
  have hbt : bestTypicalLine [10.5, 12.5, 14.5, 16.5, 18.5, 20.5, 22.5, 25.5, 28.5, 30.5]
      ⟨"B", "PTS", 21⟩ [⟨"B", "PTS", 23⟩, ⟨"B", "PTS", 27⟩] = 21 := by
    norm_num [bestTypicalLine, argminAux, minDist, min_def, abs_of_nonneg, abs_of_nonpos]
  simp only [typical_values, hbt]
  decide

/-- C8 (counterexample): the claim asserts that for the PTS group with lines
[21, 23, 27] the candidate with line 23 is selected.  The PTS typical values
include 20.5, so line 21 is at distance 0.5 from 20.5 — tying line 23's
distance 0.5 from 22.5 — and the first-occurrence tie-break selects 21. -/
theorem C8_counterexample :
    (select_main_line groupTypical).map PropCandidate.line = some 21 ∧
      ¬ (select_main_line groupTypical).map PropCandidate.line = some 23 := by
  rw [select_groupTypical_eval]
  constructor
  · rfl
  · decide

/-- C8 (amended, witness): on the PTS group with lines [21, 23, 27] the general
minimum-distance rule applies and returns the first candidate, line 21. -/
theorem C8_typical_selection_witness :
    select_main_line groupTypical = some ⟨"B", "PTS", 21⟩ := by
  have h := C8_typical_selection ⟨"B", "PTS", 21⟩ [⟨"B", "PTS", 23⟩, ⟨"B", "PTS", 27⟩]
    [10.5, 12.5, 14.5, 16.5, 18.5, 20.5, 22.5, 25.5, 28.5, 30.5]
    rfl (by decide) (by decide)
  have d21 : minDist [10.5, 12.5, 14.5, 16.5, 18.5, 20.5, 22.5, 25.5, 28.5, 30.5] 21 = 0.5 := by
    norm_num [minDist, min_def, abs_of_nonneg, abs_of_nonpos]
  have d23 : minDist [10.5, 12.5, 14.5, 16.5, 18.5, 20.5, 22.5, 25.5, 28.5, 30.5] 23 = 0.5 := by
    norm_num [minDist, min_def, abs_of_nonneg, abs_of_nonpos]
  have d27 : minDist [10.5, 12.5, 14.5, 16.5, 18.5, 20.5, 22.5, 25.5, 28.5, 30.5] 27 = 1.5 := by
    norm_num [minDist, min_def, abs_of_nonneg, abs_of_nonpos]
  show select_main_line (⟨"B", "PTS", 21⟩ :: [⟨"B", "PTS", 23⟩, ⟨"B", "PTS", 27⟩]) =
    some ⟨"B", "PTS", 21⟩
  rw [h]
  refine List.find?_cons_of_pos _ ?_
  rw [decide_eq_true_eq]
  intro q hq
  fin_cases hq <;> simp only [d21, d23, d27] <;> norm_num

/-- Whatever branch it takes, select_main_line returns a member of its group. -/
theorem select_main_line_mem (g : List PropCandidate) (p : PropCandidate)
    (h : select_main_line g = some p) : p ∈ g := by
  cases g with
  | nil => simp [select_main_line] at h
  | cons c rest =>
    simp only [select_main_line] at h
    by_cases h1 : rest.isEmpty = true
    · rw [if_pos h1] at h
      obtain rfl := Option.some.inj h
      exact List.mem_cons_self _ _
    · rw [if_neg h1] at h
      by_cases h2 : 2 ≤ countLine (c :: rest) (modeLine c rest)
      · rw [if_pos h2] at h
        exact List.mem_of_find?_eq_some h
      · rw [if_neg h2] at h
        cases htv : typical_values c.stat with
        | some targets =>
          simp only [htv] at h
          exact List.mem_of_find?_eq_some h
        | none =>
          simp only [htv] at h
          obtain rfl := Option.some.inj h
          unfold closestToMedian
          rcases argminAux_mem (fun q => |q.line - medianLine (c :: rest)|) c rest with hm | hm
          · rw [hm]
            exact List.mem_cons_self _ _
          · exact List.mem_cons_of_mem _ hm

/-- The candidate selected from a (player, stat) group carries that key. -/
theorem dedup_key_eq (props : List PropCandidate) (k : String × String) (p : PropCandidate)
    (h : select_main_line (props.filter (fun q => decide (propKey q = k))) = some p) :
    propKey p = k := by
  have hm := select_main_line_mem _ p h
  exact of_decide_eq_true (List.mem_filter.mp hm).2

/-- Deduplication emits candidates with pairwise-distinct (player, stat) keys. -/
theorem dedup_props_pairwise (props : List PropCandidate) :
    (dedup_props props).Pairwise (fun a b => propKey a ≠ propKey b) := by
  unfold dedup_props
  suffices haux : ∀ ks : List (String × String), ks.Nodup →
      (ks.filterMap
        (fun k => select_main_line (props.filter (fun p => decide (propKey p = k))))).Pairwise
        (fun a b => propKey a ≠ propKey b) by
    exact haux _ (List.nodup_dedup _)
  intro ks
  induction ks with
  | nil =>
    intro _
    simp
  | cons k ks ih =>
    intro hnd
    obtain ⟨hk, hnd2⟩ := List.nodup_cons.mp hnd
    rw [List.filterMap_cons]
    cases hsel : select_main_line (props.filter (fun p => decide (propKey p = k))) with
    | none => exact ih hnd2
    | some p =>
      refine List.Pairwise.cons ?_ (ih hnd2)
      intro b hb
      obtain ⟨k2, hk2, hsel2⟩ := List.mem_filterMap.mp hb
      rw [dedup_key_eq props k p hsel, dedup_key_eq props k2 b hsel2]
      intro he
      exact hk (he ▸ hk2)

/-- C1: for every input list of prop candidates, the deduplication stage
followed by the final sanity filter emits at most one canonical prop per
(player, stat) pair: no two emitted records agree on both player and stat. -/
theorem C1_at_most_one_per_player_stat (props : List PropCandidate) :
    (dedup_stage props).Pairwise
      (fun a b => ¬ (a.player = b.player ∧ a.stat = b.stat)) := by
  have h : (dedup_stage props).Pairwise (fun a b => propKey a ≠ propKey b) :=
    (dedup_props_pairwise props).sublist (List.filter_sublist _)
  refine h.imp ?_
  intro a b hab hcon
  exact hab (by simp [propKey, hcon.1, hcon.2])

/-- C10 (witness): the conditional parts of C10 discharged at odds = -110 and
odds = 0. -/
theorem C10_witness :
    (|((-110 : ℤ) : ℚ)| ≠ 0) ∧ 0 < american_to_prob (-110) ∧ american_to_prob 0 = 1 :=
  ⟨(C10_no_div_zero_and_range (-110)).2.2.1 (by norm_num),
   (C10_no_div_zero_and_range (-110)).2.2.2.2.1,
   (C10_no_div_zero_and_range 0).2.2.2.2.2.2.mpr rfl⟩

end PropPulse
